import Mathlib

/-! Verification development for the bulk_rename utility
(src/bulk_rename/cli.py).  Paths are modelled as lists of components
(pathlib.PurePath.parts), file contents as natural numbers, and the
filesystem as a list of entries.  All functions are executable and
mirror the Python source one for one. -/

/-- A filesystem path, as its list of components.  The final component
is the filename.  Generated filenames are treated as single components
(patterns are assumed free of path separators), so the pathlib join
`parent_dir / new_filename` appends one component. -/
abbrev FsPath := List String

/-- Final path component (pathlib `Path.name`); the empty string for the
empty path. -/
def fname (p : FsPath) : String := p.getLastD ""

/-- One directory entry: its path, whether it is a directory, and its
content (a token standing for the file bytes, irrelevant for
directories). -/
structure FsEntry where
  path : FsPath
  isDir : Bool
  content : Nat
deriving DecidableEq, Repr

/-- The filesystem: the list of currently existing entries. -/
abbrev FS := List FsEntry

/-- Whether a path exists on disk (pathlib `Path.exists`). -/
def fs_exists (fs : FS) (p : FsPath) : Bool :=
  fs.any (fun e => e.path == p)

/-- Content stored at a path, if the path exists. -/
def fs_get (fs : FS) (p : FsPath) : Option Nat :=
  (fs.find? (fun e => e.path == p)).map (fun e => e.content)

/-- POSIX rename, as used by `Path.rename`: the source entry is moved to
the destination path, silently replacing any entry already there.  Fails
(returns none, an OSError) when the source does not exist. -/
def fs_rename (fs : FS) (old_path new_path : FsPath) : Option FS :=
  match fs.find? (fun e => e.path == old_path) with
  | none => none
  | some e =>
      some ({ e with path := new_path } ::
        fs.filter (fun x => !(x.path == old_path) && !(x.path == new_path)))

/-- The opening brace character, by code. -/
def lbrace : Char := Char.ofNat 123

/-- The closing brace character, by code. -/
def rbrace : Char := Char.ofNat 125

/-- Decimal digit character for a digit value below ten. -/
def digitChar : Nat → Char
  | 0 => '0' | 1 => '1' | 2 => '2' | 3 => '3' | 4 => '4'
  | 5 => '5' | 6 => '6' | 7 => '7' | 8 => '8' | _ => '9'

/-- Numeric value contributed by a character when parsing decimal digits
(48 is the code of the digit zero). -/
def dval (c : Char) : Nat := c.toNat - 48

/-- Fold a digit list into the number it denotes. -/
def parseDecL (l : List Char) : Nat :=
  l.foldl (fun a c => 10 * a + dval c) 0

/-- Fuelled decimal rendering, accumulator style: the digits of n are
prepended before acc.  Fuel at least n + 1 suffices. -/
def natDecGo : Nat → Nat → List Char → List Char
  | 0, _, acc => acc
  | fuel + 1, n, acc =>
      if n < 10 then digitChar n :: acc
      else natDecGo fuel (n / 10) (digitChar (n % 10) :: acc)

/-- Decimal rendering of a natural number (what "%d" formatting emits
for a non-negative int). -/
def natDec (n : Nat) : List Char := natDecGo (n + 1) n []

/-- Parsed format specifier of the single placeholder: zero padding flag
and minimum field width.  Models the subset of the str.format
mini-language that the tool documents ("file_\x7b:03d\x7d" style
patterns): an empty spec, ":d", ":Nd" or ":0Nd". -/
structure FmtSpec where
  zeroPad : Bool
  width : Nat
deriving DecidableEq, Repr

/-- Parse the text between the braces of a placeholder. -/
def parseSpec (s : List Char) : Option FmtSpec :=
  match s with
  | [] => some ⟨false, 0⟩
  | ':' :: body =>
      if body.getLast? = some 'd' then
        let w := body.dropLast
        if w = [] then some ⟨false, 0⟩
        else if w.all Char.isDigit then
          match w with
          | '0' :: _ => some ⟨true, parseDecL w⟩
          | _ => some ⟨false, parseDecL w⟩
        else none
      else none
  | _ => none

/-- Split a character list at the first occurrence of c, returning the
parts before and after (the occurrence itself removed). -/
def splitAtChar (c : Char) : List Char → Option (List Char × List Char)
  | [] => none
  | a :: as =>
      if a = c then some ([], as)
      else match splitAtChar c as with
        | none => none
        | some (x, y) => some (a :: x, y)

/-- Decompose a pattern with exactly one supported placeholder into the
literal prefix, the format specifier and the literal suffix.  Patterns
with no placeholder, stray braces or an unsupported specifier yield
none. -/
def parsePatternL (p : List Char) : Option (List Char × FmtSpec × List Char) :=
  match splitAtChar lbrace p with
  | none => none
  | some (pre, rest) =>
      match splitAtChar rbrace rest with
      | none => none
      | some (inner, post) =>
          if pre.contains rbrace || inner.contains lbrace ||
             post.contains lbrace || post.contains rbrace then none
          else match parseSpec inner with
            | none => none
            | some sp => some (pre, sp, post)

/-- Render an integer under a format specifier: the decimal digits,
left-padded with zeros or spaces to the field width (sign handled as
str.format does, though the tool never formats a negative index). -/
def renderL (sp : FmtSpec) (i : Int) : List Char :=
  if i < 0 then
    let mag := natDec i.natAbs
    if sp.zeroPad then '-' :: (List.replicate (sp.width - 1 - mag.length) '0' ++ mag)
    else List.replicate (sp.width - (mag.length + 1)) ' ' ++ ('-' :: mag)
  else
    let mag := natDec i.toNat
    List.replicate (sp.width - mag.length) (if sp.zeroPad then '0' else ' ') ++ mag

/-- pattern.format(index) on character lists: substitute the single
placeholder; a pattern without a placeholder is returned verbatim (the
index is silently not embedded, as in Python with zero placeholders). -/
def formatPatternL (p : List Char) (i : Int) : List Char :=
  match parsePatternL p with
  | none => p
  | some (pre, sp, post) => pre ++ renderL sp i ++ post

/-- pattern.format(index) on strings. -/
def formatPattern (p : String) (i : Int) : String :=
  ⟨formatPatternL p.data i⟩

/-- generate_new_name (cli.py, lines 9-36): rejects a negative index
with a ValueError, otherwise formats the pattern and appends a dot and
the extension.  The TypeError branch for a non-integer index is not
representable here because the index argument is typed. -/
def generate_new_name (pattern : String) (index : Int) (extension : String) :
    Except String String :=
  if index < 0 then
    .error ("Index must be non-negative, got " ++ toString index)
  else
    .ok (formatPattern pattern index ++ "." ++ extension)

/-- Index of the last dot in a character list (str.rfind(".") as used by
pathlib `PurePath.suffix`). -/
def rfindDot : List Char → Option Nat
  | [] => none
  | c :: cs =>
      match rfindDot cs with
      | some i => some (i + 1)
      | none => if c = '.' then some 0 else none

/-- pathlib `PurePath.suffix` on the filename characters: the part from
the last dot, but only when that dot is neither the first nor the last
character; otherwise empty. -/
def pathSuffixL (nm : List Char) : List Char :=
  match rfindDot nm with
  | none => []
  | some i => if 0 < i ∧ i < nm.length - 1 then nm.drop i else []

/-- The extension generate_rename_plan passes on: `old_path.suffix[1:]`
(cli.py line 94). -/
def pathExtL (nm : List Char) : List Char := (pathSuffixL nm).drop 1

/-- String form of pathExtL. -/
def pathExt (s : String) : String := ⟨pathExtL s.data⟩

/-- Modelled from the spec wording of claim C6, for comparison with the
source behaviour: the characters of the filename after the last dot,
empty when there is no dot. -/
def specAfterLastDot (s : String) : String :=
  match rfindDot s.data with
  | none => ""
  | some i => ⟨s.data.drop (i + 1)⟩

/-- Whether a filename matches the glob pattern "*." ++ extension: fnmatch
translates the star to an unrestricted wildcard, so a name matches
exactly when it ends in a dot and the extension (extension assumed free
of glob metacharacters). -/
def globMatches (extension : String) (nm : String) : Bool :=
  (("." ++ extension).data).isSuffixOf nm.data

/-- find_files (cli.py, lines 39-54): list(directory.glob("*." ++ ext)).
The readable flag models whether the operating system allows listing the
directory; pathlib's glob suppresses the PermissionError raised for an
unreadable directory, yielding no entries.  Entries of every kind match,
directories included: glob does not restrict to regular files. -/
def find_files (readable : Bool) (fs : FS) (directory : FsPath)
    (extension : String) : List FsPath :=
  if readable then
    (fs.filter (fun e =>
      e.path.dropLast == directory && globMatches extension (fname e.path))).map
      (fun e => e.path)
  else []

/-- Code-point comparison of character lists: Python's `<` on str. -/
def charListLt : List Char → List Char → Bool
  | [], [] => false
  | [], _ :: _ => true
  | _ :: _, [] => false
  | a :: as, b :: bs =>
      if a < b then true else if b < a then false else charListLt as bs

/-- Insert a path into a list sorted by filename, before the first
element whose name is not smaller: the stable insertion step of
sorted(files, key name). -/
def insert_by_name (x : FsPath) : List FsPath → List FsPath
  | [] => [x]
  | y :: ys =>
      if charListLt (fname y).data (fname x).data then y :: insert_by_name x ys
      else x :: y :: ys

/-- sort_files (cli.py, lines 57-67): sorted(files, key name), a stable
ascending sort by filename in code-point order, realised here as a
stable insertion sort (stable ascending sorts by one key coincide). -/
def sort_files (files : List FsPath) : List FsPath :=
  match files with
  | [] => []
  | f :: rest => insert_by_name f (sort_files rest)

/-- Recursive worker of generate_rename_plan: the loop body over
enumerate(files, start), threading the running index. -/
def genPlanGo (pattern : String) : List FsPath → Int →
    Except String (List (FsPath × FsPath))
  | [], _ => .ok []
  | old_path :: rest, index =>
      let parent_dir := old_path.dropLast
      let extension := pathExt (fname old_path)
      match generate_new_name pattern index extension with
      | .error e => .error e
      | .ok new_filename =>
          match genPlanGo pattern rest (index + 1) with
          | .error e => .error e
          | .ok plan => .ok ((old_path, parent_dir ++ [new_filename]) :: plan)

/-- generate_rename_plan (cli.py, lines 70-101): pair every file with a
destination in the same parent directory, numbering from start_index. -/
def generate_rename_plan (files : List FsPath) (pattern : String)
    (start_index : Int) : Except String (List (FsPath × FsPath)) :=
  genPlanGo pattern files start_index

/-- The conflict message for a missing source (cli.py line 122). -/
def sourceMissingMsg : String := "Source file is not found"

/-- The conflict message for an existing target (cli.py line 125). -/
def targetExistsMsg : String := "Target file already exists"

/-- validate_rename_plan (cli.py, lines 104-127): walk the plan in order
and record at most one conflict per entry, the missing-source check
shadowing the existing-target check. -/
def validate_rename_plan (fs : FS) (rename_plan : List (FsPath × FsPath)) :
    List (FsPath × FsPath × String) :=
  match rename_plan with
  | [] => []
  | (old_path, new_path) :: rest =>
      if !(fs_exists fs old_path) then
        (old_path, new_path, sourceMissingMsg) :: validate_rename_plan fs rest
      else if fs_exists fs new_path then
        (old_path, new_path, targetExistsMsg) :: validate_rename_plan fs rest
      else validate_rename_plan fs rest

/-- The (source, destination) pairs of a conflict list: the keys of the
conflict_dict built in execute_rename and show_preview. -/
def conflictPairs (conflicts : List (FsPath × FsPath × String)) :
    List (FsPath × FsPath) :=
  conflicts.map (fun c => (c.1, c.2.1))

/-- Outcome of running the executor: the final filesystem, the renames
actually performed and the entries skipped (each in plan order), and
whether an unexpected rename failure aborted the loop (the uncaught
OSError). -/
structure ExecResult where
  fs : FS
  performed : List (FsPath × FsPath)
  skipped : List (FsPath × FsPath)
  aborted : Bool
deriving DecidableEq, Repr

/-- The loop of execute_rename: skip entries whose exact pair is a key
of the conflict dictionary, rename the rest in order; a failing rename
raises, aborting the remainder. -/
def execGo (conflict_pairs : List (FsPath × FsPath)) :
    FS → List (FsPath × FsPath) → ExecResult
  | fs, [] => ⟨fs, [], [], false⟩
  | fs, (old_path, new_path) :: rest =>
      if conflict_pairs.contains (old_path, new_path) then
        let r := execGo conflict_pairs fs rest
        ⟨r.fs, r.performed, (old_path, new_path) :: r.skipped, r.aborted⟩
      else
        match fs_rename fs old_path new_path with
        | none => ⟨fs, [], [], true⟩
        | some fs2 =>
            let r := execGo conflict_pairs fs2 rest
            ⟨r.fs, (old_path, new_path) :: r.performed, r.skipped, r.aborted⟩

/-- execute_rename (cli.py, lines 197-220): validate the whole plan once
against the current filesystem, then process entries strictly in plan
order. -/
def execute_rename (fs : FS) (rename_plan : List (FsPath × FsPath)) :
    ExecResult :=
  execGo (conflictPairs (validate_rename_plan fs rename_plan)) fs rename_plan

/-- Environment of a run of main: the filesystem, the three permission
facts about the target directory, and the confirmation oracle's answer
(the code consults the oracle at most once per run). -/
structure MainEnv where
  fs : FS
  pathExists : Bool
  readable : Bool
  writable : Bool
  confirmAnswer : Bool
deriving DecidableEq, Repr

/-- Command-line arguments of main (cli.py parse_args). -/
structure MainArgs where
  path : FsPath
  pattern : String
  extension : String
  start : Int
deriving DecidableEq, Repr

/-- Exit disposition of a run of main. -/
inductive MainOutcome
  | pathMissing
  | readPermissionDenied
  | noFilesFound
  | indexError (msg : String)
  | userDeclined
  | writePermissionDenied
  | nothingToRename
  | renameFailed
  | completed
deriving DecidableEq, Repr

/-- Observable result of a run of main: the exit disposition, how many
times the confirmation oracle was consulted, the entry list written to
the backup file (none when no backup was written), and the final
filesystem. -/
structure MainResult where
  outcome : MainOutcome
  confirms : Nat
  backup : Option (List (FsPath × FsPath))
  fs : FS
deriving DecidableEq, Repr

/-- main (cli.py, lines 291-337): boundary checks, discovery, sorting,
planning, validation, preview (console only), one confirmation, the
write-permission check, filtering out conflicting pairs, backup, and
execution. -/
def mainRun (env : MainEnv) (args : MainArgs) : MainResult :=
  if !env.pathExists then ⟨.pathMissing, 0, none, env.fs⟩
  else if !env.readable then ⟨.readPermissionDenied, 0, none, env.fs⟩
  else
    let files := find_files env.readable env.fs args.path args.extension
    if files = [] then ⟨.noFilesFound, 0, none, env.fs⟩
    else
      let sorted_files := sort_files files
      match generate_rename_plan sorted_files args.pattern args.start with
      | .error e => ⟨.indexError e, 0, none, env.fs⟩
      | .ok plan =>
          let conflicts := validate_rename_plan env.fs plan
          if !env.confirmAnswer then ⟨.userDeclined, 1, none, env.fs⟩
          else if !env.writable then ⟨.writePermissionDenied, 1, none, env.fs⟩
          else
            let conflicted_pairs := conflictPairs conflicts
            let effective_ops :=
              plan.filter (fun op => !(conflicted_pairs.contains op))
            if effective_ops = [] then ⟨.nothingToRename, 1, none, env.fs⟩
            else
              let r := execute_rename env.fs effective_ops
              ⟨if r.aborted then .renameFailed else .completed, 1,
                some effective_ops, r.fs⟩

/-! Helper lemmas: decimal rendering and parsing. -/

/-- The parsing step function. -/
def decStep (a : Nat) (c : Char) : Nat := 10 * a + dval c

theorem dval_digitChar (n : Nat) (h : n < 10) : dval (digitChar n) = n := by
  interval_cases n <;> rfl

theorem natDecGo_parse (fuel : Nat) : ∀ (n : Nat) (acc : List Char), n < fuel →
    ∃ L, ∀ a : Nat, List.foldl decStep a (natDecGo fuel n acc) =
      List.foldl decStep (a * 10 ^ L + n) acc := by
  induction fuel with
  | zero => intro n acc h; omega
  | succ fuel ih =>
      intro n acc h
      by_cases h10 : n < 10
      · refine ⟨1, fun a => ?_⟩
        simp only [natDecGo, if_pos h10, List.foldl_cons, decStep,
          dval_digitChar n h10]
        ring_nf
      · have hdiv : n / 10 < fuel := by
          have : n / 10 < n := Nat.div_lt_self (by omega) (by omega)
          omega
        obtain ⟨L, hL⟩ := ih (n / 10) (digitChar (n % 10) :: acc) hdiv
        refine ⟨L + 1, fun a => ?_⟩
        simp only [natDecGo, if_neg h10]
        rw [hL a]
        simp only [List.foldl_cons, decStep, dval_digitChar (n % 10) (Nat.mod_lt n (by omega))]
        have : 10 * (a * 10 ^ L + n / 10) + n % 10 = a * 10 ^ (L + 1) + n := by
          have := Nat.div_add_mod n 10
          ring_nf
          omega
        rw [this]

theorem parseDecL_natDec (n : Nat) : parseDecL (natDec n) = n := by
  obtain ⟨L, hL⟩ := natDecGo_parse (n + 1) n [] (Nat.lt_succ_self n)
  simpa [parseDecL, natDec] using hL 0

theorem foldl_decStep_replicate (k : Nat) (c : Char) (h : dval c = 0) :
    List.foldl decStep 0 (List.replicate k c) = 0 := by
  induction k with
  | zero => rfl
  | succ k ih => simp [List.replicate_succ, decStep, h, ih]

theorem parseDecL_pad (k : Nat) (c : Char) (h : dval c = 0) (n : Nat) :
    parseDecL (List.replicate k c ++ natDec n) = n := by
  obtain ⟨L, hL⟩ := natDecGo_parse (n + 1) n [] (Nat.lt_succ_self n)
  have hrep := foldl_decStep_replicate k c h
  show List.foldl decStep 0 (List.replicate k c ++ natDec n) = n
  rw [List.foldl_append, hrep]
  simpa [natDec] using hL 0

theorem parseDecL_renderL (sp : FmtSpec) (i : Int) (h : 0 ≤ i) :
    parseDecL (renderL sp i) = i.toNat := by
  have : ¬ i < 0 := by omega
  simp only [renderL, if_neg this]
  apply parseDecL_pad
  cases sp.zeroPad <;> simp <;> rfl

theorem renderL_injective (sp : FmtSpec) (i j : Int) (hi : 0 ≤ i) (hj : 0 ≤ j)
    (h : renderL sp i = renderL sp j) : i = j := by
  have h1 := parseDecL_renderL sp i hi
  have h2 := parseDecL_renderL sp j hj
  rw [h] at h1
  omega

theorem formatPatternL_injective (p : List Char) (pre post : List Char)
    (sp : FmtSpec) (hp : parsePatternL p = some (pre, sp, post))
    (i j : Int) (hi : 0 ≤ i) (hj : 0 ≤ j)
    (h : formatPatternL p i = formatPatternL p j) : i = j := by
  simp only [formatPatternL, hp] at h
  rw [List.append_assoc, List.append_assoc] at h
  have h2 := List.append_cancel_left h
  have h3 := List.append_cancel_right h2
  exact renderL_injective sp i j hi hj h3

/-! Helper lemmas: strings, dots and extensions. -/

theorem string_data_append (s t : String) : (s ++ t).data = s.data ++ t.data := by
  cases s; cases t; rfl

theorem string_of_data_eq (s t : String) (h : s.data = t.data) : s = t := by
  cases s; cases t; exact congrArg String.mk (by simpa using h)

theorem rfindDot_none (l : List Char) (h : rfindDot l = none) :
    ∀ c ∈ l, c ≠ '.' := by
  induction l with
  | nil => simp
  | cons a as ih =>
      intro c hc
      simp only [rfindDot] at h
      rcases hr : rfindDot as with _ | i
      · rw [hr] at h
        by_cases ha : a = '.'
        · simp [ha] at h
        · rcases List.mem_cons.mp hc with hc | hc
          · simpa [hc] using ha
          · exact ih hr c hc
      · rw [hr] at h
        simp at h

theorem rfindDot_drop (l : List Char) (i : Nat) (h : rfindDot l = some i) :
    ∀ c ∈ l.drop (i + 1), c ≠ '.' := by
  induction l generalizing i with
  | nil => simp [rfindDot] at h
  | cons a as ih =>
      simp only [rfindDot] at h
      rcases hr : rfindDot as with _ | j
      · rw [hr] at h
        by_cases ha : a = '.'
        · simp only [ha, if_pos rfl] at h
          cases h
          simpa using rfindDot_none as hr
        · simp [ha] at h
      · rw [hr] at h
        cases h
        simpa using ih j hr

theorem pathSuffixL_none (nm : List Char) (h : rfindDot nm = none) :
    pathSuffixL nm = [] := by
  unfold pathSuffixL
  rw [h]

theorem pathSuffixL_some (nm : List Char) (i : Nat) (h : rfindDot nm = some i) :
    pathSuffixL nm = if 0 < i ∧ i < nm.length - 1 then nm.drop i else [] := by
  unfold pathSuffixL
  rw [h]

theorem pathExtL_dotFree (nm : List Char) : ∀ c ∈ pathExtL nm, c ≠ '.' := by
  intro c hc
  simp only [pathExtL] at hc
  rcases hr : rfindDot nm with _ | i
  · rw [pathSuffixL_none nm hr] at hc; simp at hc
  · rw [pathSuffixL_some nm i hr] at hc
    by_cases hg : 0 < i ∧ i < nm.length - 1
    · rw [if_pos hg, List.drop_drop] at hc
      exact rfindDot_drop nm i hr c (by simpa [Nat.add_comm] using hc)
    · rw [if_neg hg] at hc; simp at hc

theorem dot_split_aux (x : List Char) : ∀ (y p q : List Char),
    (∀ c ∈ x, c ≠ '.') → (∀ c ∈ y, c ≠ '.') →
    x ++ '.' :: p = y ++ '.' :: q → x = y ∧ p = q := by
  induction x with
  | nil =>
      intro y p q _ hy h
      cases y with
      | nil => simpa using h
      | cons b ys =>
          simp only [List.nil_append, List.cons_append, List.cons.injEq] at h
          exact absurd h.1.symm (hy b (by simp))
  | cons a xs ih =>
      intro y p q hx hy h
      cases y with
      | nil =>
          simp only [List.cons_append, List.nil_append, List.cons.injEq] at h
          exact absurd h.1 (hx a (by simp))
      | cons b ys =>
          simp only [List.cons_append, List.cons.injEq] at h
          obtain ⟨rfl, h2⟩ := h
          obtain ⟨h3, h4⟩ := ih ys p q (fun c hc => hx c (by simp [hc]))
            (fun c hc => hy c (by simp [hc])) h2
          exact ⟨by rw [h3], h4⟩

theorem name_split (F1 F2 E1 E2 : List Char)
    (h1 : ∀ c ∈ E1, c ≠ '.') (h2 : ∀ c ∈ E2, c ≠ '.')
    (h : F1 ++ '.' :: E1 = F2 ++ '.' :: E2) : F1 = F2 ∧ E1 = E2 := by
  have hrev : E1.reverse ++ '.' :: F1.reverse = E2.reverse ++ '.' :: F2.reverse := by
    have := congrArg List.reverse h
    simpa [List.reverse_append, List.append_assoc] using this
  obtain ⟨hE, hF⟩ := dot_split_aux E1.reverse E2.reverse F1.reverse F2.reverse
    (fun c hc => h1 c (List.mem_reverse.mp hc))
    (fun c hc => h2 c (List.mem_reverse.mp hc)) hrev
  constructor
  · simpa using congrArg List.reverse hF
  · simpa using congrArg List.reverse hE

theorem concat_inj (p q : List String) (a b : String)
    (h : p ++ [a] = q ++ [b]) : p = q ∧ a = b := by
  have hrev : a :: p.reverse = b :: q.reverse := by
    have := congrArg List.reverse h
    simpa [List.reverse_append] using this
  simp only [List.cons.injEq] at hrev
  refine ⟨?_, hrev.1⟩
  simpa using congrArg List.reverse hrev.2

theorem fname_concat (p : FsPath) (a : String) : fname (p ++ [a]) = a := by
  simp [fname, List.getLastD_concat]

/-! Helper lemmas: plan construction. -/

theorem genPlanGo_spec (pattern : String) (files : List FsPath) :
    ∀ (idx : Int), 0 ≤ idx → ∃ plan,
      genPlanGo pattern files idx = .ok plan ∧
      plan.length = files.length ∧
      ∀ (i : Nat) (src : FsPath), files[i]? = some src →
        plan[i]? = some (src, src.dropLast ++
          [formatPattern pattern (idx + i) ++ "." ++ pathExt (fname src)]) := by
  induction files with
  | nil =>
      intro idx _
      exact ⟨[], rfl, rfl, by simp⟩
  | cons f rest ih =>
      intro idx hidx
      obtain ⟨plan, hplan, hlen, hchar⟩ := ih (idx + 1) (by omega)
      refine ⟨(f, f.dropLast ++
        [formatPattern pattern idx ++ "." ++ pathExt (fname f)]) :: plan, ?_, ?_, ?_⟩
      · simp only [genPlanGo, generate_new_name, if_neg (by omega : ¬ idx < 0), hplan]
      · simpa using hlen
      · intro i src hsrc
        cases i with
        | zero =>
            simp only [List.getElem?_cons_zero, Option.some.injEq] at hsrc
            subst hsrc
            simp
        | succ i =>
            simp only [List.getElem?_cons_succ] at hsrc ⊢
            have := hchar i src hsrc
            have harith : idx + 1 + (i : Int) = idx + ((i : Nat) + 1 : Nat) := by
              push_cast; ring
            rw [harith] at this
            exact this

theorem genPlanGo_ok_nonneg (pattern : String) (f : FsPath) (rest : List FsPath)
    (idx : Int) (plan : List (FsPath × FsPath))
    (h : genPlanGo pattern (f :: rest) idx = .ok plan) : 0 ≤ idx := by
  by_contra hneg
  simp only [genPlanGo, generate_new_name, if_pos (by omega : idx < 0)] at h
  exact Except.noConfusion h

/-! Helper lemmas: validation. -/

/-- The per-entry conflict rule: what validate_rename_plan records for a
single plan entry against a given filesystem. -/
def entryConflict (fs : FS) (e : FsPath × FsPath) :
    Option (FsPath × FsPath × String) :=
  if fs_exists fs e.1 = false then some (e.1, e.2, sourceMissingMsg)
  else if fs_exists fs e.2 = true then some (e.1, e.2, targetExistsMsg)
  else none

theorem validate_eq_filterMap (fs : FS) (plan : List (FsPath × FsPath)) :
    validate_rename_plan fs plan = plan.filterMap (entryConflict fs) := by
  induction plan with
  | nil => rfl
  | cons e rest ih =>
      obtain ⟨o, n⟩ := e
      simp only [validate_rename_plan, List.filterMap_cons, entryConflict]
      rcases ho : fs_exists fs o with _ | _
      · simpa [ho] using ih
      · rcases hn : fs_exists fs n with _ | _
        · simpa [ho, hn] using ih
        · simpa [ho, hn] using ih

theorem mem_validate_iff (fs : FS) (plan : List (FsPath × FsPath))
    (c : FsPath × FsPath × String) :
    c ∈ validate_rename_plan fs plan ↔
      ∃ e ∈ plan, entryConflict fs e = some c := by
  rw [validate_eq_filterMap]
  exact List.mem_filterMap

theorem not_conflict_spec (fs : FS) (plan : List (FsPath × FsPath))
    (e : FsPath × FsPath) (he : e ∈ plan)
    (hc : (conflictPairs (validate_rename_plan fs plan)).contains e = false) :
    fs_exists fs e.1 = true ∧ fs_exists fs e.2 = false := by
  have hmem : ∀ r, (e.1, e.2, r) ∈ validate_rename_plan fs plan → False := by
    intro r hr
    have : (e.1, e.2) ∈ conflictPairs (validate_rename_plan fs plan) := by
      simp only [conflictPairs, List.mem_map]
      exact ⟨(e.1, e.2, r), hr, rfl⟩
    rw [Bool.eq_false_iff] at hc
    exact hc (List.elem_iff.mpr (by simpa using this))
  constructor
  · by_contra h1
    refine hmem sourceMissingMsg ((mem_validate_iff fs plan _).mpr ⟨e, he, ?_⟩)
    simp only [entryConflict, Bool.not_eq_true] at h1 ⊢
    rw [if_pos h1]
  · by_contra h2
    have h1 : fs_exists fs e.1 = true := by
      by_contra h1
      refine hmem sourceMissingMsg ((mem_validate_iff fs plan _).mpr ⟨e, he, ?_⟩)
      simp only [entryConflict, Bool.not_eq_true] at h1 ⊢
      rw [if_pos h1]
    refine hmem targetExistsMsg ((mem_validate_iff fs plan _).mpr ⟨e, he, ?_⟩)
    simp only [entryConflict, h1]
    rw [if_neg (by simp), if_pos (by simpa using h2)]

theorem mem_validate_TE (fs : FS) (plan : List (FsPath × FsPath))
    (o n : FsPath) (h : (o, n, targetExistsMsg) ∈ validate_rename_plan fs plan) :
    fs_exists fs o = true ∧ fs_exists fs n = true := by
  obtain ⟨e, _, hrule⟩ := (mem_validate_iff fs plan _).mp h
  simp only [entryConflict] at hrule
  by_cases h1 : fs_exists fs e.1 = false
  · rw [if_pos h1] at hrule
    simp only [Option.some.injEq, Prod.mk.injEq] at hrule
    exact absurd hrule.2.2 (by decide)
  · rw [if_neg h1] at hrule
    by_cases h2 : fs_exists fs e.2 = true
    · rw [if_pos h2] at hrule
      simp only [Option.some.injEq, Prod.mk.injEq] at hrule
      obtain ⟨he1, he2, _⟩ := hrule
      subst he1; subst he2
      exact ⟨by simpa using h1, h2⟩
    · rw [if_neg h2] at hrule
      cases hrule

/-! Helper lemmas: the filesystem model. -/

theorem contains_true_iff (l : List (FsPath × FsPath)) (a : FsPath × FsPath) :
    l.contains a = true ↔ a ∈ l := List.elem_iff

theorem filter_cons_pos {α : Type} (p : α → Bool) (a : α) (l : List α)
    (h : p a = true) : List.filter p (a :: l) = a :: List.filter p l :=
  List.filter_cons_of_pos h

theorem filter_cons_neg {α : Type} (p : α → Bool) (a : α) (l : List α)
    (h : p a = false) : List.filter p (a :: l) = List.filter p l :=
  List.filter_cons_of_neg (by rw [h]; decide)

theorem find_cons_pos {α : Type} (p : α → Bool) (a : α) (l : List α)
    (h : p a = true) : List.find? p (a :: l) = some a :=
  List.find?_cons_of_pos l h

theorem find_cons_neg {α : Type} (p : α → Bool) (a : α) (l : List α)
    (h : p a = false) : List.find? p (a :: l) = List.find? p l :=
  List.find?_cons_of_neg l (by rw [h]; decide)

theorem fs_exists_eq (fs : FS) (p : FsPath) :
    fs_exists fs p = (fs_get fs p).isSome := by
  induction fs with
  | nil => rfl
  | cons e rest ih =>
      rcases h : (e.path == p) with _ | _
      · simp only [fs_exists, fs_get, List.any_cons,
          find_cons_neg (fun e => e.path == p) e rest h, h, Bool.false_or]
        exact ih
      · simp only [fs_exists, fs_get, List.any_cons,
          find_cons_pos (fun e => e.path == p) e rest h, h, Bool.true_or]
        rfl

theorem fs_rename_total (fs : FS) (o n : FsPath) (h : fs_exists fs o = true) :
    ∃ fs2, fs_rename fs o n = some fs2 := by
  have hs : (fs.find? (fun e => e.path == o)).isSome := by
    rw [fs_exists_eq] at h
    simpa [fs_get] using h
  obtain ⟨e, he⟩ := Option.isSome_iff_exists.mp hs
  refine ⟨{ e with path := n } ::
    fs.filter (fun x => !(x.path == o) && !(x.path == n)), ?_⟩
  unfold fs_rename
  rw [he]

theorem find?_filter_other (fs : FS) (o n p : FsPath) (hpo : p ≠ o) (hpn : p ≠ n) :
    (fs.filter (fun x => !(x.path == o) && !(x.path == n))).find?
      (fun e => e.path == p) = fs.find? (fun e => e.path == p) := by
  induction fs with
  | nil => rfl
  | cons e rest ih =>
      by_cases hp : e.path = p
      · have h1 : (fun x : FsEntry => !(x.path == o) && !(x.path == n)) e = true := by
          show (!(e.path == o) && !(e.path == n)) = true
          rw [hp, beq_eq_false_iff_ne.mpr hpo, beq_eq_false_iff_ne.mpr hpn]
          decide
        have h2 : (fun e : FsEntry => e.path == p) e = true := by
          show (e.path == p) = true
          rw [hp]; exact beq_self_eq_true p
        rw [filter_cons_pos _ e rest h1,
          find_cons_pos (fun e => e.path == p) e _ h2,
          find_cons_pos (fun e => e.path == p) e rest h2]
      · have h2 : (fun e : FsEntry => e.path == p) e = false := by
          show (e.path == p) = false
          exact beq_eq_false_iff_ne.mpr hp
        rcases h1 : (!(e.path == o) && !(e.path == n)) with _ | _
        · rw [filter_cons_neg _ e rest h1,
            find_cons_neg (fun e => e.path == p) e rest h2, ih]
        · rw [filter_cons_pos _ e rest h1,
            find_cons_neg (fun e => e.path == p) e _ h2,
            find_cons_neg (fun e => e.path == p) e rest h2, ih]

theorem fs_get_rename_other (fs fs2 : FS) (o n p : FsPath)
    (h : fs_rename fs o n = some fs2) (hpo : p ≠ o) (hpn : p ≠ n) :
    fs_get fs2 p = fs_get fs p := by
  unfold fs_rename at h
  rcases hf : fs.find? (fun e => e.path == o) with _ | e
  · rw [hf] at h; cases h
  · rw [hf] at h
    injection h with h
    subst h
    have hhd : (fun x : FsEntry => x.path == p) { e with path := n } = false := by
      show (n == p) = false
      exact beq_eq_false_iff_ne.mpr (fun hq => hpn hq.symm)
    simp only [fs_get, find_cons_neg (fun x : FsEntry => x.path == p) _ _ hhd]
    rw [find?_filter_other fs o n p hpo hpn]

theorem fs_get_rename_new (fs fs2 : FS) (o n : FsPath)
    (h : fs_rename fs o n = some fs2) : fs_get fs2 n = fs_get fs o := by
  unfold fs_rename at h
  rcases hf : fs.find? (fun e => e.path == o) with _ | e
  · rw [hf] at h; cases h
  · rw [hf] at h
    injection h with h
    subst h
    have hhd : (fun x : FsEntry => x.path == n) { e with path := n } = true := by
      show (n == n) = true
      exact beq_self_eq_true n
    simp only [fs_get, hf, find_cons_pos (fun x : FsEntry => x.path == n) _ _ hhd]
    rfl

theorem fs_exists_rename_old (fs fs2 : FS) (o n : FsPath)
    (h : fs_rename fs o n = some fs2) (hon : o ≠ n) :
    fs_exists fs2 o = false := by
  unfold fs_rename at h
  rcases hf : fs.find? (fun e => e.path == o) with _ | e
  · rw [hf] at h; cases h
  · rw [hf] at h
    injection h with h
    subst h
    simp only [fs_exists, List.any_cons, Bool.or_eq_false_iff]
    constructor
    · show (n == o) = false
      exact beq_eq_false_iff_ne.mpr (fun hq => hon hq.symm)
    · rw [Bool.eq_false_iff]
      intro hany
      obtain ⟨x, hx, hxp⟩ := List.any_eq_true.mp hany
      rw [List.mem_filter] at hx
      have h2 := hx.2
      simp only [Bool.and_eq_true, Bool.not_eq_true'] at h2
      rw [beq_iff_eq] at hxp
      rw [hxp] at h2
      simp at h2

theorem fs_exists_rename_preserve (fs fs2 : FS) (o n p : FsPath)
    (h : fs_rename fs o n = some fs2) (hpo : p ≠ o)
    (hp : fs_exists fs p = true) : fs_exists fs2 p = true := by
  by_cases hpn : p = n
  · subst hpn
    unfold fs_rename at h
    rcases hf : fs.find? (fun e => e.path == o) with _ | e
    · rw [hf] at h; cases h
    · rw [hf] at h
      injection h with h
      subst h
      simp [fs_exists, List.any_cons]
  · rw [fs_exists_eq] at hp ⊢
    rw [fs_get_rename_other fs fs2 o n p h hpo hpn]
    exact hp

/-! Helper lemmas: the executor. -/

theorem execGo_complete (C : List (FsPath × FsPath))
    (plan : List (FsPath × FsPath)) : ∀ fs : FS,
    ((plan.filter (fun e => !(C.contains e))).map Prod.fst).Nodup →
    (∀ e ∈ plan, C.contains e = false → fs_exists fs e.1 = true) →
    (execGo C fs plan).performed = plan.filter (fun e => !(C.contains e)) ∧
    (execGo C fs plan).skipped = plan.filter (fun e => C.contains e) ∧
    (execGo C fs plan).aborted = false := by
  induction plan with
  | nil => intro fs _ _; exact ⟨rfl, rfl, rfl⟩
  | cons e rest ih =>
      intro fs hnd hlive
      obtain ⟨o, n⟩ := e
      by_cases hc : C.contains (o, n) = true
      · have hneg : (fun e => !(C.contains e)) (o, n) = false := by
          show (!(C.contains (o, n))) = false
          rw [hc]; decide
        rw [filter_cons_neg _ _ rest hneg] at hnd ⊢
        obtain ⟨h1, h2, h3⟩ := ih fs hnd
          (fun x hx hcx => hlive x (List.mem_cons_of_mem _ hx) hcx)
        simp only [execGo, if_pos hc]
        refine ⟨h1, ?_, h3⟩
        rw [filter_cons_pos (fun e => C.contains e) _ rest hc, h2]
      · have hcb : C.contains (o, n) = false := by
          rw [Bool.eq_false_iff]; exact hc
        have hpos : (fun e => !(C.contains e)) (o, n) = true := by
          show (!(C.contains (o, n))) = true
          rw [hcb]; decide
        have hol : fs_exists fs o = true := hlive (o, n) (List.mem_cons_self _ _) hcb
        obtain ⟨fs2, hr⟩ := fs_rename_total fs o n hol
        rw [filter_cons_pos _ _ rest hpos] at hnd ⊢
        simp only [List.map_cons, List.nodup_cons] at hnd
        obtain ⟨hno, hnd2⟩ := hnd
        have hlive2 : ∀ x ∈ rest, C.contains x = false → fs_exists fs2 x.1 = true := by
          intro x hx hcx
          have hx1 : x.1 ≠ o := by
            intro hxo
            apply hno
            rw [← hxo]
            refine List.mem_map.mpr ⟨x, List.mem_filter.mpr ⟨hx, ?_⟩, rfl⟩
            show (!(C.contains x)) = true
            rw [hcx]; decide
          exact fs_exists_rename_preserve fs fs2 o n x.1 hr hx1
            (hlive x (List.mem_cons_of_mem _ hx) hcx)
        obtain ⟨h1, h2, h3⟩ := ih fs2 hnd2 hlive2
        simp only [execGo, if_neg hc, hr]
        refine ⟨by rw [h1], ?_, h3⟩
        rw [filter_cons_neg (fun e => C.contains e) _ rest hcb, h2]

theorem execGo_frame (C : List (FsPath × FsPath))
    (plan : List (FsPath × FsPath)) : ∀ (fs : FS) (p : FsPath),
    (∀ e ∈ plan, C.contains e = false → e.1 ≠ p ∧ e.2 ≠ p) →
    fs_get (execGo C fs plan).fs p = fs_get fs p := by
  induction plan with
  | nil => intro fs p _; rfl
  | cons e rest ih =>
      intro fs p hfr
      obtain ⟨o, n⟩ := e
      by_cases hc : C.contains (o, n) = true
      · simp only [execGo, if_pos hc]
        exact ih fs p (fun x hx hcx => hfr x (List.mem_cons_of_mem _ hx) hcx)
      · have hcb : C.contains (o, n) = false := by
          rw [Bool.eq_false_iff]; exact hc
        obtain ⟨hop, hnp⟩ := hfr (o, n) (List.mem_cons_self _ _) hcb
        rcases hr : fs_rename fs o n with _ | fs2
        · simp only [execGo, if_neg hc, hr]
        · simp only [execGo, if_neg hc, hr]
          rw [ih fs2 p (fun x hx hcx => hfr x (List.mem_cons_of_mem _ hx) hcx)]
          exact fs_get_rename_other fs fs2 o n p hr
            (fun hpe => hop hpe.symm) (fun hpe => hnp hpe.symm)

/-! Helper lemmas: sorting. -/

theorem insert_by_name_length (x : FsPath) (l : List FsPath) :
    (insert_by_name x l).length = l.length + 1 := by
  induction l with
  | nil => rfl
  | cons y ys ih =>
      simp only [insert_by_name]
      by_cases h : charListLt (fname y).data (fname x).data = true
      · simp [h, ih]
      · simp [h]

theorem sort_files_length (l : List FsPath) :
    (sort_files l).length = l.length := by
  induction l with
  | nil => rfl
  | cons f rest ih => simp [sort_files, insert_by_name_length, ih]

/-! Claim theorems. -/

/-- C2: for every plan and filesystem state, validate_rename_plan records,
per entry and in plan order, exactly one source-missing conflict when the
source does not exist, exactly one target-exists conflict when the source
exists and the destination exists, and nothing otherwise; the
missing-source check short-circuits the target check, so at most one
reason is reported per entry.  This is exactly the filterMap of the
per-entry rule over the plan. -/
theorem C2_validate_per_entry (fs : FS) (plan : List (FsPath × FsPath)) :
    validate_rename_plan fs plan = plan.filterMap (fun e =>
      if fs_exists fs e.1 = false then some (e.1, e.2, sourceMissingMsg)
      else if fs_exists fs e.2 = true then some (e.1, e.2, targetExistsMsg)
      else none) :=
  validate_eq_filterMap fs plan

/-- C6 counterexample: for the source filename ".gitignore" the extension
the plan builder passes to the name generator is empty (Python suffix
semantics), so the generated name is "f." rather than "f.gitignore",
although the characters after the last dot are "gitignore". -/
theorem C6_counterexample :
    generate_rename_plan [[".gitignore"]] "f" 1 = .ok [([".gitignore"], ["f."])] ∧
    specAfterLastDot ".gitignore" = "gitignore" := by
  constructor
  · rfl
  · rfl

/-- C6 (amended): the extension passed on is the characters of the
filename after the last dot, except that a filename whose last dot is its
first character or its last character yields the empty extension; a
filename with no dot also yields the empty extension. -/
theorem C6_extension_rule (s : String) :
    (rfindDot s.data = none → pathExt s = "") ∧
    (∀ i, rfindDot s.data = some i → 0 < i → i + 1 < s.data.length →
      pathExt s = specAfterLastDot s) ∧
    (∀ i, rfindDot s.data = some i → (i = 0 ∨ i + 1 = s.data.length) →
      pathExt s = "") := by
  refine ⟨?_, ?_, ?_⟩
  · intro h
    simp only [pathExt, pathExtL, pathSuffixL_none s.data h]
    rfl
  · intro i h h0 hlen
    have hg : 0 < i ∧ i < s.data.length - 1 := by omega
    simp only [pathExt, pathExtL, pathSuffixL_some s.data i h, if_pos hg,
      List.drop_drop, specAfterLastDot, h]
  · intro i h hedge
    have hg : ¬ (0 < i ∧ i < s.data.length - 1) := by omega
    simp only [pathExt, pathExtL, pathSuffixL_some s.data i h, if_neg hg]
    rfl

/-- C6 witness: on an ordinary filename the two descriptions agree. -/
theorem C6_witness : pathExt "a.txt" = specAfterLastDot "a.txt" :=
  (C6_extension_rule "a.txt").2.1 1 rfl (by decide) (by decide)

/-- C7 counterexample: with an empty file list and negative start index,
generate_rename_plan succeeds with the empty plan instead of failing; the
name generator is never consulted. -/
theorem C7_counterexample :
    generate_rename_plan [] "f" (-1) = .ok [] ∧ ((-1 : Int) < 0) :=
  ⟨rfl, by decide⟩

/-- C7 (amended): for every NON-empty file list and every pattern,
generate_rename_plan fails with the ValueError propagated from
generate_new_name on the first entry whenever the start index is
negative. -/
theorem C7_negative_start_fails (files : List FsPath) (pattern : String)
    (s : Int) (hne : files ≠ []) (hs : s < 0) :
    generate_rename_plan files pattern s =
      .error ("Index must be non-negative, got " ++ toString s) := by
  cases files with
  | nil => exact absurd rfl hne
  | cons f rest =>
      simp only [generate_rename_plan, genPlanGo, generate_new_name, if_pos hs]

/-- C7 witness: a concrete negative start index on a one-file list. -/
theorem C7_witness :
    generate_rename_plan [["a.mp4"]] "f" (-1) =
      .error ("Index must be non-negative, got " ++ toString (-1 : Int)) :=
  C7_negative_start_fails [["a.mp4"]] "f" (-1) (by decide) (by decide)

/-- C8 counterexample: an unreadable directory makes find_files return
the empty list silently (pathlib's glob suppresses the permission error);
the same directory read with permission yields the matching entry, so the
empty result is not an error being surfaced. -/
theorem C8_counterexample :
    find_files false [⟨["d", "a.mp4"], false, 0⟩] ["d"] "mp4" = [] ∧
    find_files true [⟨["d", "a.mp4"], false, 0⟩] ["d"] "mp4" = [["d", "a.mp4"]] := by
  constructor
  · rfl
  · decide

/-- C8 (amended): an unlistable directory is rejected by the boundary
layer before discovery: main exits (with no confirmation and no backup)
when the directory does not exist or cannot be read; find_files itself
returns the empty collection for an unreadable directory rather than
failing. -/
theorem C8_unreadable_boundary :
    (∀ env args, env.pathExists = false →
      mainRun env args = ⟨.pathMissing, 0, none, env.fs⟩) ∧
    (∀ env args, env.pathExists = true → env.readable = false →
      mainRun env args = ⟨.readPermissionDenied, 0, none, env.fs⟩) ∧
    (∀ (fs : FS) (directory : FsPath) (extension : String),
      find_files false fs directory extension = []) := by
  refine ⟨?_, ?_, ?_⟩
  · intro env args h
    simp [mainRun, h]
  · intro env args h1 h2
    simp [mainRun, h1, h2]
  · intro fs directory extension
    rfl

/-- C8 witness: concrete environments exercising both boundary exits. -/
theorem C8_witness :
    mainRun ⟨[], false, true, true, true⟩ ⟨["d"], "f", "mp4", 1⟩ =
      ⟨.pathMissing, 0, none, []⟩ ∧
    mainRun ⟨[], true, false, true, true⟩ ⟨["d"], "f", "mp4", 1⟩ =
      ⟨.readPermissionDenied, 0, none, []⟩ :=
  ⟨C8_unreadable_boundary.1 ⟨[], false, true, true, true⟩ ⟨["d"], "f", "mp4", 1⟩ rfl,
    (C8_unreadable_boundary.2.1) ⟨[], true, false, true, true⟩ ⟨["d"], "f", "mp4", 1⟩ rfl rfl⟩

/-- C10: find_files returns exactly the immediate children of the
directory whose name matches the glob pattern star-dot-extension,
regardless of entry kind: the characterization below places no condition
on isDir, so subdirectories with matching names are included. -/
theorem C10_find_files_members (fs : FS) (directory : FsPath)
    (extension : String) (p : FsPath) :
    p ∈ find_files true fs directory extension ↔
      ∃ e : FsEntry, e ∈ fs ∧ e.path = p ∧ p.dropLast = directory ∧
        globMatches extension (fname p) = true := by
  constructor
  · intro hp
    simp only [find_files, if_true] at hp
    obtain ⟨e, he, rfl⟩ := List.mem_map.mp hp
    rw [List.mem_filter] at he
    obtain ⟨hfs, hcond⟩ := he
    simp only [Bool.and_eq_true, beq_iff_eq] at hcond
    exact ⟨e, hfs, rfl, hcond.1, hcond.2⟩
  · rintro ⟨e, hfs, rfl, hdir, hmatch⟩
    simp only [find_files, if_true]
    refine List.mem_map.mpr ⟨e, List.mem_filter.mpr ⟨hfs, ?_⟩, rfl⟩
    simp [hdir, hmatch]

/-- C3: over n files with non-negative start index s, the plan builder
succeeds with exactly n entries; the i-th entry pairs the i-th file with a
destination in the same parent directory whose filename is produced by the
name generator at index s + i, so the assigned indices are s, s+1, ... in
plan order. -/
theorem C3_plan_shape (files : List FsPath) (pattern : String) (s : Int)
    (hs : 0 ≤ s) :
    ∃ plan, generate_rename_plan files pattern s = .ok plan ∧
      plan.length = files.length ∧
      ∀ (i : Nat) (src : FsPath), files[i]? = some src →
        ∃ dst, plan[i]? = some (src, dst) ∧ dst.dropLast = src.dropLast ∧
          generate_new_name pattern (s + i) (pathExt (fname src)) =
            .ok (fname dst) := by
  obtain ⟨plan, hp, hlen, hchar⟩ := genPlanGo_spec pattern files s hs
  refine ⟨plan, hp, hlen, ?_⟩
  intro i src hsrc
  refine ⟨src.dropLast ++
    [formatPattern pattern (s + i) ++ "." ++ pathExt (fname src)],
    hchar i src hsrc, List.dropLast_concat, ?_⟩
  rw [fname_concat]
  simp only [generate_new_name, if_neg (by omega : ¬ s + (i : Int) < 0)]

/-- C3 witness: a one-file plan at start index 1. -/
theorem C3_witness :
    ∃ plan, generate_rename_plan [["a.mp4"]] "f" 1 = .ok plan ∧
      plan.length = 1 := by
  obtain ⟨plan, h1, h2, _⟩ := C3_plan_shape [["a.mp4"]] "f" 1 (by decide)
  exact ⟨plan, h1, by simpa using h2⟩

/-- C1 counterexample: in the plan [(b, v1), (v1, v2)] over a filesystem
holding b and v1, the entry (b, v1) has a recorded target-exists conflict
and is skipped, yet after execution its pre-existing destination v1 no
longer exists: the later non-conflicting entry (v1, v2) renamed it away,
so a conflicting entry's destination is not left unchanged on disk. -/
theorem C1_counterexample :
    ((["b"] : FsPath), (["v1"] : FsPath), targetExistsMsg) ∈
      validate_rename_plan [⟨["b"], false, 1⟩, ⟨["v1"], false, 2⟩]
        [(["b"], ["v1"]), (["v1"], ["v2"])] ∧
    (execute_rename [⟨["b"], false, 1⟩, ⟨["v1"], false, 2⟩]
      [(["b"], ["v1"]), (["v1"], ["v2"])]).skipped = [(["b"], ["v1"])] ∧
    fs_exists (execute_rename [⟨["b"], false, 1⟩, ⟨["v1"], false, 2⟩]
      [(["b"], ["v1"]), (["v1"], ["v2"])]).fs ["v1"] = false := by
  refine ⟨?_, ?_, ?_⟩ <;> decide

/-- C1 (amended): execute_rename validates once and then processes
entries strictly in plan order: when the non-conflicting entries have
pairwise distinct sources the run completes without an unexpected rename
error, the renames performed are exactly the non-conflicting entries in
plan order, and the skipped notices are exactly the conflicting entries in
plan order; a target-exists conflicting entry's source and pre-existing
destination are unchanged on disk provided no non-conflicting entry of the
plan has either of them as its source. -/
theorem C1_execute_skip_frame (fs : FS) (plan : List (FsPath × FsPath))
    (hnd : ((plan.filter (fun e =>
      !((conflictPairs (validate_rename_plan fs plan)).contains e))).map
        Prod.fst).Nodup) :
    (execute_rename fs plan).aborted = false ∧
    (execute_rename fs plan).performed = plan.filter (fun e =>
      !((conflictPairs (validate_rename_plan fs plan)).contains e)) ∧
    (execute_rename fs plan).skipped = plan.filter (fun e =>
      (conflictPairs (validate_rename_plan fs plan)).contains e) ∧
    (∀ o n, (o, n, targetExistsMsg) ∈ validate_rename_plan fs plan →
      (∀ e ∈ plan,
        (conflictPairs (validate_rename_plan fs plan)).contains e = false →
        e.1 ≠ o ∧ e.1 ≠ n) →
      fs_get (execute_rename fs plan).fs o = fs_get fs o ∧
      fs_get (execute_rename fs plan).fs n = fs_get fs n) := by
  have hlive : ∀ e ∈ plan,
      (conflictPairs (validate_rename_plan fs plan)).contains e = false →
      fs_exists fs e.1 = true :=
    fun e he hce => (not_conflict_spec fs plan e he hce).1
  obtain ⟨h1, h2, h3⟩ :=
    execGo_complete (conflictPairs (validate_rename_plan fs plan)) plan fs hnd hlive
  refine ⟨h3, h1, h2, ?_⟩
  intro o n hTE hfr
  have hTEex := mem_validate_TE fs plan o n hTE
  have frameo : ∀ e ∈ plan,
      (conflictPairs (validate_rename_plan fs plan)).contains e = false →
      e.1 ≠ o ∧ e.2 ≠ o := by
    intro e he hce
    refine ⟨(hfr e he hce).1, ?_⟩
    have hne := (not_conflict_spec fs plan e he hce).2
    intro heq
    rw [heq, hTEex.1] at hne
    exact Bool.noConfusion hne
  have framen : ∀ e ∈ plan,
      (conflictPairs (validate_rename_plan fs plan)).contains e = false →
      e.1 ≠ n ∧ e.2 ≠ n := by
    intro e he hce
    refine ⟨(hfr e he hce).2, ?_⟩
    have hne := (not_conflict_spec fs plan e he hce).2
    intro heq
    rw [heq, hTEex.2] at hne
    exact Bool.noConfusion hne
  exact ⟨execGo_frame (conflictPairs (validate_rename_plan fs plan)) plan fs o frameo,
    execGo_frame (conflictPairs (validate_rename_plan fs plan)) plan fs n framen⟩

/-- C1 witness: a single-entry conflict-free plan runs to completion. -/
theorem C1_witness :
    (execute_rename [⟨["a"], false, 0⟩] [(["a"], ["b"])]).aborted = false :=
  (C1_execute_skip_frame [⟨["a"], false, 0⟩] [(["a"], ["b"])] (by decide)).1

/-- C9: execute_rename validates the entire plan exactly once before any
rename, so for the plan [(a, x), (b, x)] where a and b exist and x does
not, no conflict is recorded, both renames are performed with no skip
notice, the second overwrites the first, and afterwards x holds b's former
content while a and b are gone. -/
theorem C9_stale_validation (fs : FS) (a b x : FsPath) (ca cb : Nat)
    (ha : fs_get fs a = some ca) (hb : fs_get fs b = some cb)
    (hx : fs_exists fs x = false) (hab : a ≠ b) :
    (execute_rename fs [(a, x), (b, x)]).aborted = false ∧
    (execute_rename fs [(a, x), (b, x)]).skipped = [] ∧
    (execute_rename fs [(a, x), (b, x)]).performed = [(a, x), (b, x)] ∧
    fs_get (execute_rename fs [(a, x), (b, x)]).fs x = some cb ∧
    fs_exists (execute_rename fs [(a, x), (b, x)]).fs a = false ∧
    fs_exists (execute_rename fs [(a, x), (b, x)]).fs b = false := by
  have hea : fs_exists fs a = true := by rw [fs_exists_eq, ha]; rfl
  have heb : fs_exists fs b = true := by rw [fs_exists_eq, hb]; rfl
  have hax : a ≠ x := by
    intro h; rw [h, hx] at hea; exact Bool.noConfusion hea
  have hbx : b ≠ x := by
    intro h; rw [h, hx] at heb; exact Bool.noConfusion heb
  have hval : validate_rename_plan fs [(a, x), (b, x)] = [] := by
    simp [validate_rename_plan, hea, heb, hx]
  obtain ⟨fs2, hr2⟩ := fs_rename_total fs a x hea
  have heb2 : fs_exists fs2 b = true := by
    rw [fs_exists_eq, fs_get_rename_other fs fs2 a x b hr2 (fun h => hab h.symm) hbx, hb]
    rfl
  obtain ⟨fs3, hr3⟩ := fs_rename_total fs2 b x heb2
  have hexec : execute_rename fs [(a, x), (b, x)] = ⟨fs3, [(a, x), (b, x)], [], false⟩ := by
    unfold execute_rename
    rw [hval]
    simp [execGo, hr2, hr3, conflictPairs]
  rw [hexec]
  refine ⟨rfl, rfl, rfl, ?_, ?_, ?_⟩
  · rw [fs_get_rename_new fs2 fs3 b x hr3,
      fs_get_rename_other fs fs2 a x b hr2 (fun h => hab h.symm) hbx, hb]
  · have h2a : fs_exists fs2 a = false := fs_exists_rename_old fs fs2 a x hr2 hax
    have h2a' : fs_get fs2 a = none := by
      rw [fs_exists_eq] at h2a
      exact Option.not_isSome_iff_eq_none.mp (by rw [h2a]; decide)
    rw [fs_exists_eq, fs_get_rename_other fs2 fs3 b x a hr3 hab hax, h2a']
    rfl
  · exact fs_exists_rename_old fs2 fs3 b x hr3 hbx

/-- C9 witness: concrete two-entry plan with a shared destination. -/
theorem C9_witness :
    fs_get (execute_rename [⟨["a"], false, 10⟩, ⟨["b"], false, 20⟩]
      [((["a"] : FsPath), (["x"] : FsPath)), (["b"], ["x"])]).fs ["x"] =
      some 20 :=
  (C9_stale_validation [⟨["a"], false, 10⟩, ⟨["b"], false, 20⟩]
    ["a"] ["b"] ["x"] 10 20 (by decide) (by decide) (by decide)
    (by decide)).2.2.2.1

/-- Character data of a generated filename: the formatted pattern, a dot,
and the extension characters. -/
theorem gen_name_data (pattern : String) (k : Int) (s : String) :
    (formatPattern pattern k ++ "." ++ pathExt s).data =
      formatPatternL pattern.data k ++ '.' :: pathExtL s.data := by
  rw [string_data_append, string_data_append, List.append_assoc]
  rfl

/-- Injectivity of pattern formatting over non-negative indices whenever
the pattern carries a placeholder. -/
theorem formatPatternL_inj_of_isSome (p : List Char)
    (hp : (parsePatternL p).isSome = true) (i j : Int) (hi : 0 ≤ i)
    (hj : 0 ≤ j) (h : formatPatternL p i = formatPatternL p j) : i = j := by
  obtain ⟨⟨pre, sp, post⟩, hparse⟩ := Option.isSome_iff_exists.mp hp
  exact formatPatternL_injective p pre post sp hparse i j hi hj h

/-- C4: when the pattern embeds the numeric placeholder, a plan built over
distinct files with strictly increasing indices never assigns the same
destination path twice. -/
theorem C4_distinct_destinations (files : List FsPath) (pattern : String)
    (s : Int) (plan : List (FsPath × FsPath))
    (hok : generate_rename_plan files pattern s = .ok plan)
    (hph : (parsePatternL pattern.data).isSome = true)
    (hnd : files.Nodup) :
    (plan.map Prod.snd).Nodup := by
  cases files with
  | nil =>
      simp only [generate_rename_plan, genPlanGo] at hok
      injection hok with h
      rw [← h]
      simp
  | cons f rest =>
      have hs : 0 ≤ s := genPlanGo_ok_nonneg pattern f rest s plan hok
      obtain ⟨plan2, hp2, hlen, hchar⟩ := genPlanGo_spec pattern (f :: rest) s hs
      rw [generate_rename_plan, hp2] at hok
      injection hok with hpe
      subst hpe
      rw [List.nodup_iff_getElem?_ne_getElem?]
      intro i j hij hjlen
      rw [List.length_map, hlen] at hjlen
      have hilen : i < (f :: rest).length := by omega
      obtain ⟨srci, hsrci⟩ : ∃ src, (f :: rest)[i]? = some src :=
        ⟨_, List.getElem?_eq_getElem hilen⟩
      obtain ⟨srcj, hsrcj⟩ : ∃ src, (f :: rest)[j]? = some src :=
        ⟨_, List.getElem?_eq_getElem hjlen⟩
      have hci := hchar i srci hsrci
      have hcj := hchar j srcj hsrcj
      intro hcontra
      rw [List.getElem?_map, List.getElem?_map, hci, hcj] at hcontra
      simp only [Option.map_some'] at hcontra
      injection hcontra with hd
      obtain ⟨hpar, hname⟩ := concat_inj _ _ _ _ hd
      have hdata := congrArg String.data hname
      rw [gen_name_data, gen_name_data] at hdata
      obtain ⟨hfmt, _⟩ := name_split _ _ _ _
        (pathExtL_dotFree (fname srci).data) (pathExtL_dotFree (fname srcj).data)
        hdata
      have := formatPatternL_inj_of_isSome pattern.data hph (s + i) (s + j)
        (by omega) (by omega) hfmt
      omega

/-- C4 witness: two files, a zero-padded pattern, distinct destinations. -/
theorem C4_witness :
    (([((["a.mp4"] : FsPath), (["v_001.mp4"] : FsPath)),
       (["b.mp4"], ["v_002.mp4"])] : List (FsPath × FsPath)).map Prod.snd).Nodup :=
  C4_distinct_destinations [["a.mp4"], ["b.mp4"]] "v_\x7b:03d\x7d" 1
    [(["a.mp4"], ["v_001.mp4"]), (["b.mp4"], ["v_002.mp4"])]
    (by rfl) (by rfl) (by decide)

/-- C5 counterexample: a run in which every plan entry conflicts (the
only candidate destination already exists) consults the confirmation
oracle once before discovering there is nothing to rename, so the run
does not halt before requesting confirmation; no backup is written. -/
theorem C5_counterexample :
    mainRun ⟨[⟨["d", "b.mp4"], false, 1⟩, ⟨["d", "v.mp4"], false, 2⟩],
        true, true, true, true⟩ ⟨["d"], "v", "mp4", 1⟩ =
      ⟨.nothingToRename, 1, none,
        [⟨["d", "b.mp4"], false, 1⟩, ⟨["d", "v.mp4"], false, 2⟩]⟩ ∧
    (1 : Nat) ≠ 0 := by
  exact ⟨by decide, by decide⟩

/-- C5 (amended): when no files match, the run halts before requesting
confirmation and before writing a backup; when planning succeeds but
every entry is conflicting, the run writes no backup but does consult the
confirmation oracle exactly once before halting. -/
theorem C5_empty_result_halts :
    (∀ (env : MainEnv) (args : MainArgs), env.pathExists = true →
      env.readable = true →
      find_files true env.fs args.path args.extension = [] →
      mainRun env args = ⟨.noFilesFound, 0, none, env.fs⟩) ∧
    (∀ (env : MainEnv) (args : MainArgs) (plan : List (FsPath × FsPath)),
      env.pathExists = true → env.readable = true →
      generate_rename_plan
        (sort_files (find_files true env.fs args.path args.extension))
        args.pattern args.start = .ok plan →
      (∀ e ∈ plan,
        (conflictPairs (validate_rename_plan env.fs plan)).contains e = true) →
      plan ≠ [] →
      (mainRun env args).confirms = 1 ∧ (mainRun env args).backup = none) := by
  constructor
  · intro env args hpe hre hfind
    simp [mainRun, hpe, hre, hfind]
  · intro env args plan hpe hre hok hall hne
    have hfiles : find_files true env.fs args.path args.extension ≠ [] := by
      intro hf
      rw [hf] at hok
      injection hok with h
      exact hne h.symm
    have heff : plan.filter (fun op =>
        !((conflictPairs (validate_rename_plan env.fs plan)).contains op)) = [] := by
      rw [List.filter_eq_nil_iff]
      intro a ha
      rw [hall a ha]
      decide
    rcases hca : env.confirmAnswer with _ | _
    · simp [mainRun, hpe, hre, hfiles, hok, hca]
    · rcases hwr : env.writable with _ | _
      · simp [mainRun, hpe, hre, hfiles, hok, hca, hwr]
      · simp [mainRun, hpe, hre, hfiles, hok, hca, hwr]
        rw [if_pos heff]
        exact ⟨rfl, rfl⟩

/-- C5 witness: a no-files run halts silently; an all-conflicts run
writes no backup. -/
theorem C5_witness :
    mainRun ⟨[], true, true, true, true⟩ ⟨["d"], "f", "mp4", 1⟩ =
      ⟨.noFilesFound, 0, none, []⟩ ∧
    (mainRun ⟨[⟨["d", "b.mp4"], false, 1⟩, ⟨["d", "v.mp4"], false, 2⟩],
        true, true, true, false⟩ ⟨["d"], "v", "mp4", 1⟩).backup = none := by
  constructor
  · exact C5_empty_result_halts.1 _ _ rfl rfl rfl
  · exact (C5_empty_result_halts.2 _ _
      [(["d", "b.mp4"], ["d", "v.mp4"]), (["d", "v.mp4"], ["d", "v.mp4"])]
      rfl rfl (by rfl) (by decide) (by decide)).2
